import Mathlib

/-!
Verification of the lcache library (a load-through, stale-while-revalidate
in-process cache) against its design specification.

The development shallowly embeds the Go source of the repository:

- item (src/lcache.go, lines 271-357): the per-key cache entry with its
  Value / Refresh / refresh state machine, modelled by ItemState together
  with the operations ItemState.RefreshGo (the body of item.Refresh),
  ItemState.ValueStep (the body of item.Value up to the point where a cold
  caller suspends) and ItemState.loadComplete (the body of the asynchronous
  item.refresh task, run when a spawned load finishes).  Goroutine spawning
  is made explicit: RefreshGo returns the number of load tasks it launches,
  and the ghost field inFlight counts spawned but uncompleted load tasks.
  The one-shot channel initialCh is modelled by the ghost field closeCount,
  the number of times the channel has been closed.

- Container (src/lcache.go, lines 55-269): the cache container in both of
  its modes.  In non-LRU mode the index is the map items; in LRU mode the
  Go code keeps the map elements and the recency list evictList in lockstep
  (every mutation updates both), so the embedding merges them into the
  single association list evict, ordered by recency with the head most
  recent.  Items are allocated in the append-only heap list; an id is a
  heap position, and removal only unindexes, exactly as in the Go source
  where a removed item object stays alive while its pending load finishes.

Machine integers do not overflow in any modelled code path, so time and
sizes are Nat.  Interleaving of concurrent callers is modelled by the step
relations ItemStep / CStep whose individual steps are the atomic sections
of the source.
-/

namespace LCache

/-- Values stored in the cache, a coarse model of the Go interface values
that a loader returns. -/
inductive GoVal where
  | nilV
  | intV (n : Int)
  | strV (s : String)
  deriving DecidableEq

/-- Go error values as compared by the cache: the nil error, the
distinguished ErrResourceExhausted sentinel (compared by identity in
src/lcache.go line 330), and ordinary errors. -/
inductive Err where
  | nilE
  | resourceExhausted
  | other (msg : String)
  deriving DecidableEq

/-- State of one cache entry (struct item, src/lcache.go lines 271-284).
The fields inFlight (number of spawned, uncompleted load goroutines) and
closeCount (number of times initialCh has been closed) are ghost fields
that make the concurrency bookkeeping provable. -/
structure ItemState where
  value : GoVal
  err : Err
  ttl : Nat
  expireAt : Nat
  initialed : Bool
  refreshing : Bool
  inFlight : Nat
  closeCount : Nat
  deriving DecidableEq

/-- The newItem constructor (src/lcache.go lines 286-295): zero value and
error, zero expiry (so the first read is already stale), not initialed,
not refreshing, open channel. -/
def newItem (ttl : Nat) : ItemState :=
  { value := GoVal.nilV, err := Err.nilE, ttl := ttl, expireAt := 0,
    initialed := false, refreshing := false, inFlight := 0, closeCount := 0 }

/-- The body of item.Refresh (src/lcache.go lines 313-324), run under the
entry lock: if refreshing is already set, nothing changes and no load task
is spawned; otherwise refreshing is set and exactly one load task starts.
The second component is the number of goroutines launched. -/
def ItemState.RefreshGo (s : ItemState) : ItemState × Nat :=
  if s.refreshing then (s, 0)
  else ({ s with refreshing := true, inFlight := s.inFlight + 1 }, 1)

/-- The body of the asynchronous task item.refresh (src/lcache.go lines
326-343), applied when the load finishes with result res at time now: the
value and error pair is overwritten unless the error is the
resource-exhaustion sentinel, the expiry always advances to now plus ttl,
the refreshing flag is cleared, and on the first completion the initialed
flag is set and initialCh is closed. -/
def ItemState.loadComplete (s : ItemState) (res : GoVal × Err) (now : Nat) : ItemState :=
  let s1 := if res.2 = Err.resourceExhausted then s
            else { s with value := res.1, err := res.2 }
  { s1 with
    expireAt := now + s.ttl,
    refreshing := false,
    inFlight := s.inFlight - 1,
    initialed := true,
    closeCount := if s.initialed then s.closeCount else s.closeCount + 1 }

/-- How a call to item.Value returns to its caller. -/
inductive ValueMode where
  | immediate
  | blocked
  deriving DecidableEq

/-- The body of item.Value (src/lcache.go lines 300-311) up to the point
where a cold caller suspends on initialCh: a fresh read returns the stored
pair at once, an expired read first runs Refresh, then a warm caller
returns the stale pair at once while a cold caller blocks (payload none:
its eventual answer is read from the entry after the first load
completes). -/
def ItemState.ValueStep (s : ItemState) (now : Nat) :
    ItemState × ValueMode × Option (GoVal × Err) :=
  if now < s.expireAt then (s, ValueMode.immediate, some (s.value, s.err))
  else
    let s2 := s.RefreshGo.1
    if s2.initialed then (s2, ValueMode.immediate, some (s2.value, s2.err))
    else (s2, ValueMode.blocked, none)

/-- The pair a cold caller reads from the entry once initialCh has fired
(the final line of item.Value, src/lcache.go line 310). -/
def coldReturn (s : ItemState) : GoVal × Err := (s.value, s.err)

/-- Atomic steps of one entry: a caller runs Refresh, a caller runs the
synchronous part of Value, or a pending load task completes. -/
inductive ItemStep : ItemState → ItemState → Prop where
  | refreshStep (s : ItemState) : ItemStep s s.RefreshGo.1
  | valueStep (s : ItemState) (now : Nat) : ItemStep s (s.ValueStep now).1
  | loadStep (s : ItemState) (res : GoVal × Err) (now : Nat) (h : 0 < s.inFlight) :
      ItemStep s (s.loadComplete res now)

/-- Entry states reachable from a freshly constructed item by any
interleaving of Value and Refresh calls and load completions. -/
inductive ItemReach (ttl : Nat) : ItemState → Prop where
  | init : ItemReach ttl (newItem ttl)
  | step {s s2 : ItemState} : ItemReach ttl s → ItemStep s s2 → ItemReach ttl s2

/-- The inductive invariant of one entry: the ttl is constant, the number
of in-flight load tasks is exactly the refreshing flag, and the one-shot
channel has been closed exactly when the entry is initialed. -/
def ItemInv (ttl : Nat) (s : ItemState) : Prop :=
  s.ttl = ttl ∧
  s.inFlight = (if s.refreshing then 1 else 0) ∧
  s.closeCount = (if s.initialed then 1 else 0)

/-- Lookup in an association list from keys to item ids, the model of a Go
map read. -/
def lookupK : List (String × Nat) → String → Option Nat
  | [], _ => none
  | p :: l, k => if p.1 = k then some p.2 else lookupK l k

/-- Removal of a key binding, the model of a Go map delete (and, for the
LRU structure, of removing the corresponding list element). -/
def eraseK : List (String × Nat) → String → List (String × Nat)
  | [], _ => []
  | p :: l, k => if p.1 = k then eraseK l k else p :: eraseK l k

/-- State of the cache container (struct Container, src/lcache.go lines
55-69).  In LRU mode the Go code keeps the elements map and the evictList
in lockstep, so both are modelled by the single recency-ordered
association list evict (head is most recent).  Items live in the
append-only heap; ids are heap positions, and unindexing never touches the
heap, matching the Go source where removed item objects stay alive for
their pending loads. -/
structure ContainerState where
  enableLRU : Bool
  capacity : Nat
  ttl : Nat
  fnNumIn : Nat
  items : List (String × Nat)
  evict : List (String × Nat)
  heap : List ItemState
  deriving DecidableEq

/-- The container produced by a successful newContainer call: empty
indexes and heap. -/
def mkContainer (lru : Bool) (cap ttl nin : Nat) : ContainerState :=
  { enableLRU := lru, capacity := cap, ttl := ttl, fnNumIn := nin,
    items := [], evict := [], heap := [] }

/-- Index lookup in the mode-appropriate structure. -/
def ContainerState.lookupKey (c : ContainerState) (k : String) : Option Nat :=
  if c.enableLRU then lookupK c.evict k else lookupK c.items k

/-- The index part of Container.Get (src/lcache.go lines 134-208): a hit
returns the existing id (and in LRU mode moves the key to the recency
head); a miss allocates a new item, indexes it (in LRU mode pushing it to
the recency front and, once the index exceeds capacity, synchronously
evicting the recency tail). -/
def ContainerState.getIdx (c : ContainerState) (k : String) : ContainerState × Nat :=
  if c.enableLRU then
    match lookupK c.evict k with
    | some i => ({ c with evict := (k, i) :: eraseK c.evict k }, i)
    | none =>
        let i := c.heap.length
        let e1 := (k, i) :: c.evict
        ({ c with
            evict := if e1.length > c.capacity then e1.dropLast else e1,
            heap := c.heap ++ [newItem c.ttl] }, i)
  else
    match lookupK c.items k with
    | some i => (c, i)
    | none =>
        ({ c with items := (k, c.heap.length) :: c.items,
                  heap := c.heap ++ [newItem c.ttl] }, c.heap.length)

/-- Container.Get (src/lcache.go lines 134-167): index the key, then run
the synchronous part of item.Value on the looked-up entry at time now.
Returns the new container state, the id of the entry used, how the call
returns and, for non-blocked calls, the returned pair. -/
def ContainerState.GetFull (c : ContainerState) (k : String) (now : Nat) :
    ContainerState × Nat × ValueMode × Option (GoVal × Err) :=
  match (c.getIdx k).1.heap.get? (c.getIdx k).2 with
  | some s =>
      ({ (c.getIdx k).1 with
          heap := (c.getIdx k).1.heap.set (c.getIdx k).2 (s.ValueStep now).1 },
        (c.getIdx k).2, (s.ValueStep now).2.1, (s.ValueStep now).2.2)
  | none => ((c.getIdx k).1, (c.getIdx k).2, ValueMode.immediate, none)

/-- Container.Remove (src/lcache.go lines 243-259): unindex the key in the
mode-appropriate structure, returning whether it was present.  The heap is
untouched: the removed item object lives on. -/
def ContainerState.removeKey (c : ContainerState) (k : String) : ContainerState × Bool :=
  if c.enableLRU then
    match lookupK c.evict k with
    | some _ => ({ c with evict := eraseK c.evict k }, true)
    | none => (c, false)
  else
    match lookupK c.items k with
    | some _ => ({ c with items := eraseK c.items k }, true)
    | none => (c, false)

/-- Container.Purge (src/lcache.go lines 226-239): clear the whole index
and, in LRU mode, the recency list. -/
def ContainerState.purge (c : ContainerState) : ContainerState :=
  if c.enableLRU then { c with evict := [] } else { c with items := [] }

/-- Container.Len (src/lcache.go lines 262-269). -/
def ContainerState.len (c : ContainerState) : Nat :=
  if c.enableLRU then c.evict.length else c.items.length

/-- Completion of the load task of the item with id i (item.refresh,
src/lcache.go lines 326-343), possibly long after the item was unindexed:
only the heap slot is updated, the indexes are never touched. -/
def ContainerState.loadCompleteAt (c : ContainerState) (i : Nat) (res : GoVal × Err)
    (now : Nat) : ContainerState :=
  match c.heap.get? i with
  | some s => { c with heap := c.heap.set i (s.loadComplete res now) }
  | none => c

/-- Atomic container-level steps: any Get, Remove or Purge call, or the
completion of any pending load task. -/
inductive CStep : ContainerState → ContainerState → Prop where
  | getStep (c : ContainerState) (k : String) (now : Nat) : CStep c (c.GetFull k now).1
  | removeStep (c : ContainerState) (k : String) : CStep c (c.removeKey k).1
  | purgeStep (c : ContainerState) : CStep c c.purge
  | loadStep (c : ContainerState) (i : Nat) (res : GoVal × Err) (now : Nat) :
      CStep c (c.loadCompleteAt i res now)

/-- Reflexive-transitive closure of container steps. -/
inductive CTrace : ContainerState → ContainerState → Prop where
  | refl (c : ContainerState) : CTrace c c
  | tail {c c2 c3 : ContainerState} : CTrace c c2 → CStep c2 c3 → CTrace c c3

/-- An item id is still referenced by one of the two indexes. -/
def usesId (c : ContainerState) (i : Nat) : Prop :=
  ∃ p ∈ c.items ++ c.evict, p.2 = i

/-- Structural invariant of the container: every indexed id points into
the heap, indexed ids are pairwise distinct, and each index has pairwise
distinct keys. -/
def CInv (c : ContainerState) : Prop :=
  (∀ p ∈ c.items ++ c.evict, p.2 < c.heap.length) ∧
  ((c.items ++ c.evict).map Prod.snd).Nodup ∧
  (c.items.map Prod.fst).Nodup ∧
  (c.evict.map Prod.fst).Nodup

/-- Concrete container used by witnesses: one key inserted. -/
def wBase : ContainerState := ((mkContainer false 3 5 2).GetFull "x" 0).1

/-- The witness container after removing its only key. -/
def wRemoved : ContainerState := (wBase.removeKey "x").1

/-- Containers for the LRU witness: capacity 2, keys a then b inserted. -/
def w6a : ContainerState := ((mkContainer true 2 5 2).GetFull "a" 0).1

/-- Second insertion for the LRU witness. -/
def w6b : ContainerState := (w6a.GetFull "b" 0).1

/-- Third insertion for the LRU witness, which must evict the tail. -/
def w6c : ContainerState := (w6b.GetFull "c" 0).1

/-- Go reflect kinds, coarsely: the constructor only asks whether the
value is a function (src/lcache.go line 97). -/
inductive GoKind where
  | funcK
  | stringK
  | intK
  | otherK
  deriving DecidableEq

/-- The reflective shape of a candidate loader: kind, parameter count,
result count, and whether the second result implements error (the last is
never inspected by the constructor). -/
structure FnShape where
  kind : GoKind
  numIn : Nat
  numOut : Nat
  secondOutIsError : Bool
  deriving DecidableEq

/-- A candidate loader argument: the nil interface value or a value with
a reflective shape. -/
inductive FnVal where
  | nilFn
  | mk (sh : FnShape)
  deriving DecidableEq

/-- Options passed to newContainer: an optional WithCapacity value
(absent keeps the 512 default of src/lcache.go line 88) and WithLRU. -/
structure OptsIn where
  capacity : Option Int
  enableLRU : Bool
  deriving DecidableEq

/-- Outcome of newContainer: a container, the capacity validation error,
ErrInvalidFn, or the runtime panic that reflect.TypeOf on a nil loader
causes when Kind is called on the nil result. -/
inductive ConstructResult where
  | ok (c : ContainerState)
  | errCapacityNotPositive
  | errInvalidFn
  | panicNilFn
  deriving DecidableEq

/-- newContainer (src/lcache.go lines 87-116): capacity defaults to 512
and must be positive, a nil fn panics inside reflect, a fn that is not a
function with exactly two results is rejected with ErrInvalidFn, and any
other fn yields an empty container. -/
def newContainer (fn : FnVal) (ttl : Nat) (opt : OptsIn) : ConstructResult :=
  let cap : Int := opt.capacity.getD 512
  if cap ≤ 0 then ConstructResult.errCapacityNotPositive
  else
    match fn with
    | FnVal.nilFn => ConstructResult.panicNilFn
    | FnVal.mk sh =>
        if sh.kind = GoKind.funcK ∧ sh.numOut = 2 then
          ConstructResult.ok (mkContainer opt.enableLRU cap.toNat ttl sh.numIn)
        else ConstructResult.errInvalidFn

/-- The loader contract as the specification words it: a function of
fixed arity producing exactly a value and an error. -/
def specLoaderContract (fn : FnVal) : Prop :=
  match fn with
  | FnVal.nilFn => False
  | FnVal.mk sh =>
      sh.kind = GoKind.funcK ∧ sh.numOut = 2 ∧ sh.secondOutIsError = true

/-- Parameter values passed to Get, modelled coarsely. -/
inductive PVal where
  | pInt (n : Int)
  | pStr (s : String)
  deriving DecidableEq

/-- A parameter as passed: a plain value or a pointer to a value.  The
pointer address is irrelevant because reflect.Indirect projects to the
pointed-to value before rendering. -/
inductive Param where
  | byValue (v : PVal)
  | byPtr (v : PVal)
  deriving DecidableEq

/-- reflect.Indirect (src/lcache.go line 126): dereference pointers,
leave plain values alone. -/
def indirectP : Param → PVal
  | Param.byValue v => v
  | Param.byPtr v => v

/-- The fmt %v rendering of the modelled values. -/
def formatV : PVal → String
  | PVal.pInt n => toString n
  | PVal.pStr s => s

/-- defaultCacheKeyGenerator (src/lcache.go lines 120-129): concatenate,
for every parameter, a hash sign and the %v rendering of its
reflect.Indirect projection. -/
def defaultCacheKeyGenerator (params : List Param) : String :=
  params.foldl (fun buf p => buf ++ "#" ++ formatV (indirectP p)) ""

/-- Tuples whose parameters are pointwise equal after pointer
projection. -/
def paramTupleEquiv (ps qs : List Param) : Prop :=
  List.Forall₂ (fun p q => indirectP p = indirectP q) ps qs

theorem itemInv_init (ttl : Nat) : ItemInv ttl (newItem ttl) := by
  simp [ItemInv, newItem]

theorem itemInv_refreshGo {ttl : Nat} {s : ItemState} (h : ItemInv ttl s) :
    ItemInv ttl s.RefreshGo.1 := by
  obtain ⟨h1, h2, h3⟩ := h
  by_cases hr : s.refreshing <;> simp [ItemInv, ItemState.RefreshGo, hr, h1, h3] at h2 ⊢
  · simpa [hr] using h2
  · simpa [hr] using h2

theorem itemInv_step {ttl : Nat} {s s2 : ItemState} (h : ItemInv ttl s)
    (hs : ItemStep s s2) : ItemInv ttl s2 := by
  cases hs with
  | refreshStep => exact itemInv_refreshGo h
  | valueStep now =>
      by_cases hf : now < s.expireAt
      · simpa [ItemState.ValueStep, hf] using h
      · by_cases hi : s.RefreshGo.1.initialed <;>
          simpa [ItemState.ValueStep, hf, hi] using itemInv_refreshGo h
  | loadStep res now hp =>
      obtain ⟨h1, h2, h3⟩ := h
      have hr : s.refreshing = true := by
        by_contra hc
        simp [eq_false_of_ne_true hc] at h2
        omega
      by_cases hsen : res.2 = Err.resourceExhausted <;>
        by_cases hi : s.initialed <;>
          simp_all [ItemInv, ItemState.loadComplete, hr, hsen, hi]

theorem itemInv_reach {ttl : Nat} {s : ItemState} (h : ItemReach ttl s) :
    ItemInv ttl s := by
  induction h with
  | init => exact itemInv_init ttl
  | step _ hs ih => exact itemInv_step ih hs

theorem refreshGo_value (s : ItemState) : s.RefreshGo.1.value = s.value := by
  by_cases h : s.refreshing <;> simp [ItemState.RefreshGo, h]

theorem refreshGo_err (s : ItemState) : s.RefreshGo.1.err = s.err := by
  by_cases h : s.refreshing <;> simp [ItemState.RefreshGo, h]

theorem refreshGo_initialed (s : ItemState) : s.RefreshGo.1.initialed = s.initialed := by
  by_cases h : s.refreshing <;> simp [ItemState.RefreshGo, h]

/-- Claim C1: item.Refresh on an entry whose refreshing flag is set leaves
the state unchanged and spawns no load task; on an entry whose flag is
clear it sets the flag and spawns exactly one load task; and along every
interleaving of Value and Refresh calls and load completions, at most one
load task is in flight. -/
theorem refresh_single_flight (ttl : Nat) (s : ItemState) (h : ItemReach ttl s) :
    (s.refreshing = true → s.RefreshGo = (s, 0)) ∧
    (s.refreshing = false →
      s.RefreshGo = ({ s with refreshing := true, inFlight := s.inFlight + 1 }, 1)) ∧
    s.inFlight ≤ 1 := by
  obtain ⟨h1, h2, h3⟩ := itemInv_reach h
  refine ⟨fun hr => by simp [ItemState.RefreshGo, hr],
          fun hr => by simp [ItemState.RefreshGo, hr], ?_⟩
  by_cases hr : s.refreshing <;> simp [hr] at h2 <;> omega

/-- Witness for refresh_single_flight at the freshly constructed item. -/
theorem refresh_single_flight_witness :
    ((newItem 5).refreshing = true → (newItem 5).RefreshGo = (newItem 5, 0)) ∧
    ((newItem 5).refreshing = false →
      (newItem 5).RefreshGo =
        ({ newItem 5 with refreshing := true, inFlight := (newItem 5).inFlight + 1 }, 1)) ∧
    (newItem 5).inFlight ≤ 1 :=
  refresh_single_flight 5 (newItem 5) ItemReach.init

/-- Claim C2 (amended): a fresh read returns the stored pair at once with
no state change; an expired warm read runs Refresh and returns the stale
stored pair at once; an expired cold read runs Refresh and blocks, and the
pair it later reads is the pair stored after the first load completes,
which equals the loaded pair whenever the load error is not the
resource-exhaustion sentinel. -/
theorem value_read_protocol (s : ItemState) (now : Nat) :
    (now < s.expireAt →
      s.ValueStep now = (s, ValueMode.immediate, some (s.value, s.err))) ∧
    (¬ now < s.expireAt → s.initialed = true →
      s.ValueStep now = (s.RefreshGo.1, ValueMode.immediate, some (s.value, s.err))) ∧
    (¬ now < s.expireAt → s.initialed = false →
      s.ValueStep now = (s.RefreshGo.1, ValueMode.blocked, none) ∧
      (∀ res : GoVal × Err, ∀ now2 : Nat, res.2 ≠ Err.resourceExhausted →
        coldReturn (s.RefreshGo.1.loadComplete res now2) = res)) := by
  refine ⟨fun hf => by simp [ItemState.ValueStep, hf], ?_, ?_⟩
  · intro hf hi
    simp [ItemState.ValueStep, hf, refreshGo_initialed, hi,
      refreshGo_value, refreshGo_err]
  · intro hf hi
    refine ⟨by simp [ItemState.ValueStep, hf, refreshGo_initialed, hi], ?_⟩
    intro res now2 hres
    simp [coldReturn, ItemState.loadComplete, hres]

/-- Witness for value_read_protocol: a fresh read on a warm entry and a
cold read on a new entry. -/
theorem value_read_protocol_witness :
    ((3 : Nat) < ((newItem 5).RefreshGo.1.loadComplete (GoVal.intV 1, Err.nilE) 5).expireAt) ∧
    (((newItem 5).RefreshGo.1.loadComplete (GoVal.intV 1, Err.nilE) 5).ValueStep 3
      = ((newItem 5).RefreshGo.1.loadComplete (GoVal.intV 1, Err.nilE) 5, ValueMode.immediate,
          some (((newItem 5).RefreshGo.1.loadComplete (GoVal.intV 1, Err.nilE) 5).value,
                ((newItem 5).RefreshGo.1.loadComplete (GoVal.intV 1, Err.nilE) 5).err))) ∧
    ((newItem 5).ValueStep 7 = ((newItem 5).RefreshGo.1, ValueMode.blocked, none)) :=
  ⟨by decide,
   (value_read_protocol ((newItem 5).RefreshGo.1.loadComplete (GoVal.intV 1, Err.nilE) 5) 3).1
     (by decide),
   ((value_read_protocol (newItem 5) 7).2.2 (by decide) (by decide)).1⟩

/-- Counterexample to claim C2 as stated: when the first-ever load of a
cold entry finishes with the resource-exhaustion sentinel, the blocked
cold caller receives the untouched zero pair, not the loaded pair. -/
theorem value_cold_sentinel_cex :
    ((newItem 5).ValueStep 0).2.1 = ValueMode.blocked ∧
    coldReturn (((newItem 5).ValueStep 0).1.loadComplete
        (GoVal.intV 7, Err.resourceExhausted) 1)
      = (GoVal.nilV, Err.nilE) ∧
    (GoVal.nilV, Err.nilE) ≠ ((GoVal.intV 7, Err.resourceExhausted) : GoVal × Err) := by
  refine ⟨rfl, rfl, by decide⟩

/-- Claim C3: a load completing with the ErrResourceExhausted sentinel
leaves the stored value and error untouched, while the expiry still
advances to now plus ttl, the refreshing flag is cleared, and on a
first-ever load the initialed flag is set and the one-shot channel is
closed. -/
theorem sentinel_frame_effect (s : ItemState) (res : GoVal × Err) (now : Nat)
    (h : res.2 = Err.resourceExhausted) :
    (s.loadComplete res now).value = s.value ∧
    (s.loadComplete res now).err = s.err ∧
    (s.loadComplete res now).expireAt = now + s.ttl ∧
    (s.loadComplete res now).refreshing = false ∧
    (s.loadComplete res now).initialed = true ∧
    (s.initialed = false → (s.loadComplete res now).closeCount = s.closeCount + 1) ∧
    (s.initialed = true → (s.loadComplete res now).closeCount = s.closeCount) := by
  by_cases hi : s.initialed <;> simp [ItemState.loadComplete, h, hi]

/-- Witness for sentinel_frame_effect at a concrete cold entry. -/
theorem sentinel_frame_effect_witness :
    ((GoVal.intV 7, Err.resourceExhausted) : GoVal × Err).2 = Err.resourceExhausted ∧
    (((newItem 5).loadComplete (GoVal.intV 7, Err.resourceExhausted) 3).value
        = (newItem 5).value ∧
      ((newItem 5).loadComplete (GoVal.intV 7, Err.resourceExhausted) 3).err
        = (newItem 5).err ∧
      ((newItem 5).loadComplete (GoVal.intV 7, Err.resourceExhausted) 3).expireAt
        = 3 + (newItem 5).ttl ∧
      ((newItem 5).loadComplete (GoVal.intV 7, Err.resourceExhausted) 3).refreshing = false ∧
      ((newItem 5).loadComplete (GoVal.intV 7, Err.resourceExhausted) 3).initialed = true ∧
      ((newItem 5).initialed = false →
        ((newItem 5).loadComplete (GoVal.intV 7, Err.resourceExhausted) 3).closeCount
          = (newItem 5).closeCount + 1) ∧
      ((newItem 5).initialed = true →
        ((newItem 5).loadComplete (GoVal.intV 7, Err.resourceExhausted) 3).closeCount
          = (newItem 5).closeCount)) :=
  ⟨by decide, sentinel_frame_effect (newItem 5) (GoVal.intV 7, Err.resourceExhausted) 3 rfl⟩

/-- Claim C4: a load completing with any non-sentinel result, ordinary
errors included, overwrites value and error together with the new pair;
the expiry is set to now plus ttl, the refreshing flag is cleared, and
the initialed flag and the one-shot channel fire exactly once, on the
first completed load. -/
theorem refresh_postcondition (ttl : Nat) (s : ItemState) (h : ItemReach ttl s)
    (res : GoVal × Err) (now : Nat) (hres : res.2 ≠ Err.resourceExhausted) :
    (s.loadComplete res now).value = res.1 ∧
    (s.loadComplete res now).err = res.2 ∧
    (s.loadComplete res now).expireAt = now + ttl ∧
    (s.loadComplete res now).refreshing = false ∧
    (s.loadComplete res now).initialed = true ∧
    (s.initialed = false → s.closeCount = 0 ∧ (s.loadComplete res now).closeCount = 1) ∧
    (s.initialed = true → s.closeCount = 1 ∧ (s.loadComplete res now).closeCount = 1) ∧
    (s.loadComplete res now).closeCount = 1 := by
  obtain ⟨h1, h2, h3⟩ := itemInv_reach h
  by_cases hi : s.initialed <;>
    simp_all [ItemState.loadComplete, hres, hi, h1]

/-- Witness for refresh_postcondition: the first load of a fresh entry,
spawned by one Refresh, completes with an ordinary error. -/
theorem refresh_postcondition_witness :
    (((GoVal.nilV, Err.other "boom") : GoVal × Err).2 ≠ Err.resourceExhausted) ∧
    (((newItem 5).RefreshGo.1.loadComplete (GoVal.nilV, Err.other "boom") 9).value
        = GoVal.nilV ∧
      ((newItem 5).RefreshGo.1.loadComplete (GoVal.nilV, Err.other "boom") 9).err
        = Err.other "boom" ∧
      ((newItem 5).RefreshGo.1.loadComplete (GoVal.nilV, Err.other "boom") 9).expireAt
        = 9 + 5 ∧
      ((newItem 5).RefreshGo.1.loadComplete (GoVal.nilV, Err.other "boom") 9).refreshing
        = false ∧
      ((newItem 5).RefreshGo.1.loadComplete (GoVal.nilV, Err.other "boom") 9).initialed
        = true ∧
      ((newItem 5).RefreshGo.1.initialed = false →
        (newItem 5).RefreshGo.1.closeCount = 0 ∧
        ((newItem 5).RefreshGo.1.loadComplete (GoVal.nilV, Err.other "boom") 9).closeCount
          = 1) ∧
      ((newItem 5).RefreshGo.1.initialed = true →
        (newItem 5).RefreshGo.1.closeCount = 1 ∧
        ((newItem 5).RefreshGo.1.loadComplete (GoVal.nilV, Err.other "boom") 9).closeCount
          = 1) ∧
      ((newItem 5).RefreshGo.1.loadComplete (GoVal.nilV, Err.other "boom") 9).closeCount
        = 1) :=
  ⟨by decide,
   refresh_postcondition 5 (newItem 5).RefreshGo.1
     (ItemReach.step ItemReach.init (ItemStep.refreshStep (newItem 5)))
     (GoVal.nilV, Err.other "boom") 9 (by decide)⟩

theorem lookupK_eraseK_self (l : List (String × Nat)) (k : String) :
    lookupK (eraseK l k) k = none := by
  induction l with
  | nil => rfl
  | cons p l ih =>
      by_cases h : p.1 = k <;> simp [eraseK, h, lookupK, ih]

theorem mem_of_mem_eraseK {l : List (String × Nat)} {k : String} {p : String × Nat}
    (h : p ∈ eraseK l k) : p ∈ l := by
  induction l with
  | nil => simp [eraseK] at h
  | cons q l ih =>
      by_cases hq : q.1 = k
      · simp only [eraseK, if_pos hq] at h
        exact List.mem_cons_of_mem q (ih h)
      · simp only [eraseK, if_neg hq, List.mem_cons] at h
        rcases h with h | h
        · exact h ▸ List.mem_cons_self q l
        · exact List.mem_cons_of_mem q (ih h)

theorem eraseK_sublist (l : List (String × Nat)) (k : String) :
    (eraseK l k).Sublist l := by
  induction l with
  | nil => simp [eraseK]
  | cons q l ih =>
      by_cases hq : q.1 = k
      · simp only [eraseK, if_pos hq]
        exact ih.cons q
      · simp only [eraseK, if_neg hq]
        exact ih.cons₂ q

theorem keys_not_mem_of_lookupK_none {l : List (String × Nat)} {k : String}
    (h : lookupK l k = none) : ∀ p ∈ l, p.1 ≠ k := by
  induction l with
  | nil => simp
  | cons q l ih =>
      by_cases hq : q.1 = k
      · simp [lookupK, hq] at h
      · simp only [lookupK, if_neg hq] at h
        intro p hp
        rcases List.mem_cons.mp hp with hp | hp
        · exact hp ▸ hq
        · exact ih h p hp

theorem mem_of_lookupK_some {l : List (String × Nat)} {k : String} {i : Nat}
    (h : lookupK l k = some i) : (k, i) ∈ l := by
  induction l with
  | nil => simp [lookupK] at h
  | cons q l ih =>
      by_cases hq : q.1 = k
      · simp only [lookupK, if_pos hq, Option.some.injEq] at h
        have : q = (k, i) := by
          cases q
          simp_all
        exact this ▸ List.mem_cons_self q l
      · simp only [lookupK, if_neg hq] at h
        exact List.mem_cons_of_mem q (ih h)

theorem eraseK_eq_of_lookupK_none {l : List (String × Nat)} {k : String}
    (h : lookupK l k = none) : eraseK l k = l := by
  induction l with
  | nil => rfl
  | cons q l ih =>
      by_cases hq : q.1 = k
      · simp [lookupK, hq] at h
      · simp only [lookupK, if_neg hq] at h
        simp [eraseK, hq, ih h]

theorem length_eraseK_of_lookupK_some {l : List (String × Nat)} {k : String} {i : Nat}
    (hnd : (l.map Prod.fst).Nodup) (h : lookupK l k = some i) :
    (eraseK l k).length + 1 = l.length := by
  induction l with
  | nil => simp [lookupK] at h
  | cons q l ih =>
      simp only [List.map_cons, List.nodup_cons] at hnd
      by_cases hq : q.1 = k
      · have hnone : lookupK l k = none := by
          rcases hl : lookupK l k with _ | j
          · rfl
          · exact absurd (hq ▸ List.mem_map_of_mem Prod.fst (mem_of_lookupK_some hl))
              hnd.1
        simp [eraseK, hq, eraseK_eq_of_lookupK_none hnone]
      · simp only [lookupK, if_neg hq] at h
        simp [eraseK, hq, ih hnd.2 h]

theorem lookupK_none_of_not_mem_keys {l : List (String × Nat)} {k : String}
    (h : ∀ p ∈ l, p.1 ≠ k) : lookupK l k = none := by
  induction l with
  | nil => rfl
  | cons q l ih =>
      have hq : q.1 ≠ k := h q (List.mem_cons_self q l)
      simp only [lookupK, if_neg hq]
      exact ih fun p hp => h p (List.mem_cons_of_mem q hp)

theorem getIdx_nonLRU_hit {c : ContainerState} {k : String} {i : Nat}
    (h : c.enableLRU = false) (hl : lookupK c.items k = some i) :
    c.getIdx k = (c, i) := by
  simp [ContainerState.getIdx, h, hl]

theorem getIdx_nonLRU_miss {c : ContainerState} {k : String}
    (h : c.enableLRU = false) (hl : lookupK c.items k = none) :
    c.getIdx k = ({ c with
        items := (k, c.heap.length) :: c.items,
        heap := c.heap ++ [newItem c.ttl] }, c.heap.length) := by
  simp [ContainerState.getIdx, h, hl]

theorem getIdx_LRU_hit {c : ContainerState} {k : String} {i : Nat}
    (h : c.enableLRU = true) (hl : lookupK c.evict k = some i) :
    c.getIdx k = ({ c with evict := (k, i) :: eraseK c.evict k }, i) := by
  simp [ContainerState.getIdx, h, hl]

theorem getIdx_LRU_miss {c : ContainerState} {k : String}
    (h : c.enableLRU = true) (hl : lookupK c.evict k = none) :
    c.getIdx k =
      ({ c with
          evict := if ((k, c.heap.length) :: c.evict).length > c.capacity
                   then ((k, c.heap.length) :: c.evict).dropLast
                   else (k, c.heap.length) :: c.evict,
          heap := c.heap ++ [newItem c.ttl] }, c.heap.length) := by
  simp [ContainerState.getIdx, h, hl]

theorem getIdx_config (c : ContainerState) (k : String) :
    (c.getIdx k).1.enableLRU = c.enableLRU ∧ (c.getIdx k).1.capacity = c.capacity ∧
    (c.getIdx k).1.ttl = c.ttl := by
  by_cases h : c.enableLRU
  · rcases hl : lookupK c.evict k with _ | i <;> simp [ContainerState.getIdx, h, hl]
  · rcases hl : lookupK c.items k with _ | i <;> simp [ContainerState.getIdx, h, hl]

theorem GetFull_parts (c : ContainerState) (k : String) (now : Nat) :
    (c.GetFull k now).1.items = (c.getIdx k).1.items ∧
    (c.GetFull k now).1.evict = (c.getIdx k).1.evict ∧
    (c.GetFull k now).1.heap.length = (c.getIdx k).1.heap.length ∧
    (c.GetFull k now).2.1 = (c.getIdx k).2 ∧
    (c.GetFull k now).1.enableLRU = c.enableLRU ∧
    (c.GetFull k now).1.capacity = c.capacity ∧
    (c.GetFull k now).1.ttl = c.ttl := by
  obtain ⟨h1, h2, h3⟩ := getIdx_config c k
  unfold ContainerState.GetFull
  rcases hh : (c.getIdx k).1.heap.get? (c.getIdx k).2 with _ | s <;>
    simp [hh, h1, h2, h3]

theorem removeKey_parts (c : ContainerState) (k : String) :
    (c.removeKey k).1.heap = c.heap ∧
    (c.removeKey k).1.enableLRU = c.enableLRU ∧
    (c.removeKey k).1.capacity = c.capacity ∧
    (c.removeKey k).1.ttl = c.ttl := by
  unfold ContainerState.removeKey
  by_cases h : c.enableLRU
  · rcases hl : lookupK c.evict k with _ | i <;> simp [h, hl]
  · rcases hl : lookupK c.items k with _ | i <;> simp [h, hl]

theorem loadCompleteAt_parts (c : ContainerState) (i : Nat) (res : GoVal × Err)
    (now : Nat) :
    (c.loadCompleteAt i res now).items = c.items ∧
    (c.loadCompleteAt i res now).evict = c.evict ∧
    (c.loadCompleteAt i res now).heap.length = c.heap.length ∧
    (c.loadCompleteAt i res now).enableLRU = c.enableLRU ∧
    (c.loadCompleteAt i res now).capacity = c.capacity ∧
    (c.loadCompleteAt i res now).ttl = c.ttl := by
  unfold ContainerState.loadCompleteAt
  rcases hh : c.heap.get? i with _ | s <;> simp [hh]

theorem purge_parts (c : ContainerState) :
    c.purge.heap = c.heap ∧ c.purge.enableLRU = c.enableLRU ∧
    c.purge.capacity = c.capacity ∧ c.purge.ttl = c.ttl ∧
    (c.enableLRU = true → c.purge.evict = [] ∧ c.purge.items = c.items) ∧
    (c.enableLRU = false → c.purge.items = [] ∧ c.purge.evict = c.evict) := by
  by_cases h : c.enableLRU <;> simp [ContainerState.purge, h]

theorem cstep_config {c c2 : ContainerState} (h : CStep c c2) :
    c2.enableLRU = c.enableLRU ∧ c2.capacity = c.capacity ∧ c2.ttl = c.ttl := by
  cases h with
  | getStep k now =>
      obtain ⟨_, _, _, _, h5, h6, h7⟩ := GetFull_parts c k now
      exact ⟨h5, h6, h7⟩
  | removeStep k =>
      obtain ⟨_, h2, h3, h4⟩ := removeKey_parts c k
      exact ⟨h2, h3, h4⟩
  | purgeStep =>
      obtain ⟨_, h2, h3, h4, _⟩ := purge_parts c
      exact ⟨h2, h3, h4⟩
  | loadStep i res now =>
      obtain ⟨_, _, _, h4, h5, h6⟩ := loadCompleteAt_parts c i res now
      exact ⟨h4, h5, h6⟩

theorem cstep_heap_len {c c2 : ContainerState} (h : CStep c c2) :
    c.heap.length ≤ c2.heap.length := by
  cases h with
  | getStep k now =>
      have h3 := (GetFull_parts c k now).2.2.1
      rw [h3]
      by_cases hm : c.enableLRU
      · rcases hl : lookupK c.evict k with _ | i
        · simp [getIdx_LRU_miss hm hl]
        · simp [getIdx_LRU_hit hm hl]
      · have hm2 : c.enableLRU = false := by simpa using hm
        rcases hl : lookupK c.items k with _ | i
        · simp [getIdx_nonLRU_miss hm2 hl]
        · simp [getIdx_nonLRU_hit hm2 hl]
  | removeStep k => exact le_of_eq (congrArg List.length (removeKey_parts c k).1.symm)
  | purgeStep => exact le_of_eq (congrArg List.length (purge_parts c).1.symm)
  | loadStep i res now => exact le_of_eq (loadCompleteAt_parts c i res now).2.2.1.symm

theorem eraseK_perm {l : List (String × Nat)} {k : String} {i : Nat}
    (hnd : (l.map Prod.fst).Nodup) (h : lookupK l k = some i) :
    l.Perm ((k, i) :: eraseK l k) := by
  induction l with
  | nil => simp [lookupK] at h
  | cons q l ih =>
      simp only [List.map_cons, List.nodup_cons] at hnd
      by_cases hq : q.1 = k
      · simp only [lookupK, if_pos hq, Option.some.injEq] at h
        have hqe : q = (k, i) := by
          cases q
          simp_all
        have hnone : lookupK l k = none := by
          refine lookupK_none_of_not_mem_keys fun p hp hpk => ?_
          exact hnd.1 (hq ▸ hpk ▸ List.mem_map_of_mem Prod.fst hp)
        rw [hqe]
        simp [eraseK, hq, eraseK_eq_of_lookupK_none hnone]
      · simp only [lookupK, if_neg hq] at h
        have step1 : (q :: l).Perm (q :: (k, i) :: eraseK l k) :=
          List.Perm.cons q (ih hnd.2 h)
        have step2 : (q :: (k, i) :: eraseK l k).Perm ((k, i) :: q :: eraseK l k) :=
          List.Perm.swap (k, i) q (eraseK l k)
        simpa [eraseK, hq] using step1.trans step2

theorem cinv_init (lru : Bool) (cap ttl nin : Nat) : CInv (mkContainer lru cap ttl nin) := by
  simp [CInv, mkContainer]

theorem nodup_snd_middle_fresh {its evs : List (String × Nat)} {k : String} {L : Nat}
    (hb : ∀ p ∈ its ++ evs, p.2 < L)
    (hi : ((its ++ evs).map Prod.snd).Nodup) :
    ((its ++ (k, L) :: evs).map Prod.snd).Nodup := by
  have hperm : ((its ++ (k, L) :: evs).map Prod.snd).Perm
      (L :: (its ++ evs).map Prod.snd) := by
    have hmid : (its ++ (k, L) :: evs).Perm ((k, L) :: (its ++ evs)) :=
      List.perm_middle
    exact hmid.map Prod.snd
  rw [hperm.nodup_iff]
  refine List.nodup_cons.mpr ⟨?_, hi⟩
  intro hmem
  obtain ⟨p, hp, hp2⟩ := List.mem_map.mp hmem
  exact absurd (hp2 ▸ hb p hp) (lt_irrefl L)

theorem cinv_eq {c1 c2 : ContainerState} (hi : c1.items = c2.items)
    (he : c1.evict = c2.evict) (hh : c1.heap.length = c2.heap.length)
    (h : CInv c2) : CInv c1 := by
  unfold CInv at h ⊢
  rw [hi, he, hh]
  exact h

theorem removeKey_LRU_hit {c : ContainerState} {k : String} {j : Nat}
    (hm : c.enableLRU = true) (hl : lookupK c.evict k = some j) :
    c.removeKey k = ({ c with evict := eraseK c.evict k }, true) := by
  simp [ContainerState.removeKey, hm, hl]

theorem removeKey_LRU_miss {c : ContainerState} {k : String}
    (hm : c.enableLRU = true) (hl : lookupK c.evict k = none) :
    c.removeKey k = (c, false) := by
  simp [ContainerState.removeKey, hm, hl]

theorem removeKey_nonLRU_hit {c : ContainerState} {k : String} {j : Nat}
    (hm : c.enableLRU = false) (hl : lookupK c.items k = some j) :
    c.removeKey k = ({ c with items := eraseK c.items k }, true) := by
  simp [ContainerState.removeKey, hm, hl]

theorem removeKey_nonLRU_miss {c : ContainerState} {k : String}
    (hm : c.enableLRU = false) (hl : lookupK c.items k = none) :
    c.removeKey k = (c, false) := by
  simp [ContainerState.removeKey, hm, hl]

theorem cinv_getIdx {c : ContainerState} (h : CInv c) (k : String) :
    CInv (c.getIdx k).1 := by
  obtain ⟨hb, hi, hki, hke⟩ := h
  by_cases hm : c.enableLRU
  · rcases hl : lookupK c.evict k with _ | j
    · rw [getIdx_LRU_miss hm hl]
      have hkfresh : ∀ p ∈ c.evict, p.1 ≠ k := keys_not_mem_of_lookupK_none hl
      have he1b : ∀ p ∈ c.items ++ (k, c.heap.length) :: c.evict,
          p.2 < c.heap.length + 1 := by
        intro p hp
        rcases List.mem_append.mp hp with hp | hp
        · exact Nat.lt_succ_of_lt (hb p (List.mem_append_left _ hp))
        · rcases List.mem_cons.mp hp with hp | hp
          · simp [hp]
          · exact Nat.lt_succ_of_lt (hb p (List.mem_append_right _ hp))
      have he1i : ((c.items ++ (k, c.heap.length) :: c.evict).map Prod.snd).Nodup :=
        nodup_snd_middle_fresh hb hi
      have he1k : (((k, c.heap.length) :: c.evict).map Prod.fst).Nodup := by
        refine List.nodup_cons.mpr ⟨?_, hke⟩
        intro hmem
        obtain ⟨p, hp, hp1⟩ := List.mem_map.mp hmem
        exact hkfresh p hp hp1
      unfold CInv
      by_cases hcap : ((k, c.heap.length) :: c.evict).length > c.capacity
      · rw [if_pos hcap]
        have hsub : List.Sublist
            (c.items ++ ((k, c.heap.length) :: c.evict).dropLast)
            (c.items ++ (k, c.heap.length) :: c.evict) :=
          List.Sublist.append (List.Sublist.refl _) (List.dropLast_sublist _)
        refine ⟨fun p hp => ?_, ?_, hki, ?_⟩
        · simpa using he1b p (hsub.subset hp)
        · exact List.Nodup.sublist (hsub.map Prod.snd) he1i
        · exact List.Nodup.sublist ((List.dropLast_sublist _).map Prod.fst) he1k
      · rw [if_neg hcap]
        refine ⟨fun p hp => ?_, he1i, hki, he1k⟩
        simpa using he1b p hp
    · rw [getIdx_LRU_hit hm hl]
      have hperm : c.evict.Perm ((k, j) :: eraseK c.evict k) := eraseK_perm hke hl
      have hcomb : (c.items ++ c.evict).Perm
          (c.items ++ (k, j) :: eraseK c.evict k) := hperm.append_left c.items
      refine ⟨?_, ?_, hki, ?_⟩
      · intro p hp
        exact hb p (hcomb.mem_iff.mpr hp)
      · exact ((hcomb.map Prod.snd).nodup_iff).mp hi
      · refine List.nodup_cons.mpr ⟨?_, ?_⟩
        · intro hmem
          obtain ⟨p, hp, hp1⟩ := List.mem_map.mp hmem
          exact keys_not_mem_of_lookupK_none (lookupK_eraseK_self c.evict k) p hp hp1
        · exact List.Nodup.sublist ((eraseK_sublist c.evict k).map Prod.fst) hke
  · have hm2 : c.enableLRU = false := by simpa using hm
    rcases hl : lookupK c.items k with _ | j
    · rw [getIdx_nonLRU_miss hm2 hl]
      refine ⟨?_, ?_, ?_, hke⟩
      · intro p hp
        simp only [List.cons_append, List.mem_cons] at hp
        rcases hp with hp | hp
        · simp [hp]
        · simpa using Nat.lt_succ_of_lt (hb p hp)
      · have hrw : ((k, c.heap.length) :: c.items ++ c.evict).map Prod.snd =
            (c.heap.length :: (c.items ++ c.evict).map Prod.snd) := by simp
        rw [show (({ c with
              items := (k, c.heap.length) :: c.items,
              heap := c.heap ++ [newItem c.ttl] } : ContainerState).items ++ c.evict)
            = ((k, c.heap.length) :: c.items ++ c.evict) from rfl, hrw]
        refine List.nodup_cons.mpr ⟨?_, hi⟩
        intro hmem
        obtain ⟨p, hp, hp2⟩ := List.mem_map.mp hmem
        exact absurd (hp2 ▸ hb p hp) (lt_irrefl c.heap.length)
      · refine List.nodup_cons.mpr ⟨?_, hki⟩
        intro hmem
        obtain ⟨p, hp, hp1⟩ := List.mem_map.mp hmem
        exact keys_not_mem_of_lookupK_none hl p hp hp1
    · rw [getIdx_nonLRU_hit hm2 hl]
      exact ⟨hb, hi, hki, hke⟩

theorem cinv_removeKey {c : ContainerState} (h : CInv c) (k : String) :
    CInv (c.removeKey k).1 := by
  obtain ⟨hb, hi, hki, hke⟩ := h
  by_cases hm : c.enableLRU
  · rcases hl : lookupK c.evict k with _ | j
    · rw [removeKey_LRU_miss hm hl]
      exact ⟨hb, hi, hki, hke⟩
    · rw [removeKey_LRU_hit hm hl]
      have hsub : List.Sublist (c.items ++ eraseK c.evict k) (c.items ++ c.evict) :=
        List.Sublist.append (List.Sublist.refl _) (eraseK_sublist c.evict k)
      exact ⟨fun p hp => hb p (hsub.subset hp),
        List.Nodup.sublist (hsub.map Prod.snd) hi, hki,
        List.Nodup.sublist ((eraseK_sublist c.evict k).map Prod.fst) hke⟩
  · have hm2 : c.enableLRU = false := by simpa using hm
    rcases hl : lookupK c.items k with _ | j
    · rw [removeKey_nonLRU_miss hm2 hl]
      exact ⟨hb, hi, hki, hke⟩
    · rw [removeKey_nonLRU_hit hm2 hl]
      have hsub : List.Sublist (eraseK c.items k ++ c.evict) (c.items ++ c.evict) :=
        List.Sublist.append (eraseK_sublist c.items k) (List.Sublist.refl _)
      exact ⟨fun p hp => hb p (hsub.subset hp),
        List.Nodup.sublist (hsub.map Prod.snd) hi,
        List.Nodup.sublist ((eraseK_sublist c.items k).map Prod.fst) hki, hke⟩

theorem cinv_step {c c2 : ContainerState} (h : CInv c) (hs : CStep c c2) : CInv c2 := by
  cases hs with
  | getStep k now =>
      obtain ⟨h1, h2, h3, _⟩ := GetFull_parts c k now
      exact cinv_eq h1 h2 h3 (cinv_getIdx h k)
  | removeStep k => exact cinv_removeKey h k
  | purgeStep =>
      obtain ⟨hh, _, _, _, hlru, hnon⟩ := purge_parts c
      obtain ⟨hb, hi, hki, hke⟩ := h
      unfold CInv
      by_cases hm : c.enableLRU
      · obtain ⟨he, hit⟩ := hlru hm
        rw [he, hit, hh]
        refine ⟨?_, ?_, hki, List.nodup_nil⟩
        · intro p hp
          simp only [List.append_nil] at hp
          exact hb p (List.mem_append_left _ hp)
        · simp only [List.append_nil]
          exact List.Nodup.sublist
            ((List.sublist_append_left c.items c.evict).map Prod.snd) hi
      · have hm2 : c.enableLRU = false := by simpa using hm
        obtain ⟨hit, he⟩ := hnon hm2
        rw [he, hit, hh]
        refine ⟨?_, ?_, List.nodup_nil, hke⟩
        · intro p hp
          simp only [List.nil_append] at hp
          exact hb p (List.mem_append_right _ hp)
        · simp only [List.nil_append]
          exact List.Nodup.sublist
            ((List.sublist_append_right c.items c.evict).map Prod.snd) hi
  | loadStep i res now =>
      obtain ⟨h1, h2, h3, _⟩ := loadCompleteAt_parts c i res now
      exact cinv_eq h1 h2 h3 h

theorem cinv_trace {c c2 : ContainerState} (h : CInv c) (ht : CTrace c c2) : CInv c2 := by
  induction ht with
  | refl => exact h
  | tail _ hs ih => exact cinv_step ih hs

theorem ctrace_config {c c2 : ContainerState} (ht : CTrace c c2) :
    c2.enableLRU = c.enableLRU ∧ c2.capacity = c.capacity ∧ c2.ttl = c.ttl := by
  induction ht with
  | refl => exact ⟨rfl, rfl, rfl⟩
  | tail _ hs ih =>
      obtain ⟨a, b, d⟩ := cstep_config hs
      exact ⟨a.trans ih.1, b.trans ih.2.1, d.trans ih.2.2⟩

theorem usesId_of_lookupKey {c : ContainerState} {kk : String} {i : Nat}
    (h : c.lookupKey kk = some i) : usesId c i := by
  unfold ContainerState.lookupKey at h
  by_cases hm : c.enableLRU
  · simp only [hm, if_true] at h
    exact ⟨(kk, i), List.mem_append_right _ (mem_of_lookupK_some h), rfl⟩
  · simp only [hm, if_false, Bool.false_eq_true] at h
    exact ⟨(kk, i), List.mem_append_left _ (mem_of_lookupK_some h), rfl⟩

theorem cstep_usesId {c c2 : ContainerState} {i : Nat} (hs : CStep c c2)
    (h : usesId c2 i) : usesId c i ∨ i = c.heap.length := by
  cases hs with
  | getStep k now =>
      obtain ⟨hit, hev, _, _⟩ := GetFull_parts c k now
      obtain ⟨p, hp, hpi⟩ := h
      rw [hit, hev] at hp
      by_cases hm : c.enableLRU
      · rcases hl : lookupK c.evict k with _ | j
        · rw [getIdx_LRU_miss hm hl] at hp
          have hp2 : p ∈ c.items ++ (k, c.heap.length) :: c.evict := by
            rcases List.mem_append.mp hp with hp | hp
            · exact List.mem_append_left _ hp
            · refine List.mem_append_right _ ?_
              by_cases hcap : ((k, c.heap.length) :: c.evict).length > c.capacity
              · rw [if_pos hcap] at hp
                exact (List.dropLast_sublist _).subset hp
              · rw [if_neg hcap] at hp
                exact hp
          rcases List.mem_cons.mp ((List.perm_middle.mem_iff).mp hp2) with hp3 | hp3
          · right
            rw [← hpi, hp3]
          · left
            exact ⟨p, hp3, hpi⟩
        · rw [getIdx_LRU_hit hm hl] at hp
          left
          rcases List.mem_append.mp hp with hp | hp
          · exact ⟨p, List.mem_append_left _ hp, hpi⟩
          · rcases List.mem_cons.mp hp with hp | hp
            · exact ⟨p, List.mem_append_right _
                (by rw [hp]; exact mem_of_lookupK_some hl), hpi⟩
            · exact ⟨p, List.mem_append_right _ (mem_of_mem_eraseK hp), hpi⟩
      · have hm2 : c.enableLRU = false := by simpa using hm
        rcases hl : lookupK c.items k with _ | j
        · rw [getIdx_nonLRU_miss hm2 hl] at hp
          have hp2 : p = (k, c.heap.length) ∨ p ∈ c.items ++ c.evict := by
            simpa using hp
          rcases hp2 with hp3 | hp3
          · right
            rw [← hpi, hp3]
          · left
            exact ⟨p, hp3, hpi⟩
        · rw [getIdx_nonLRU_hit hm2 hl] at hp
          left
          exact ⟨p, hp, hpi⟩
  | removeStep k =>
      obtain ⟨p, hp, hpi⟩ := h
      left
      by_cases hm : c.enableLRU
      · rcases hl : lookupK c.evict k with _ | j
        · rw [removeKey_LRU_miss hm hl] at hp
          exact ⟨p, hp, hpi⟩
        · rw [removeKey_LRU_hit hm hl] at hp
          have hsub : List.Sublist (c.items ++ eraseK c.evict k) (c.items ++ c.evict) :=
            List.Sublist.append (List.Sublist.refl _) (eraseK_sublist c.evict k)
          exact ⟨p, hsub.subset hp, hpi⟩
      · have hm2 : c.enableLRU = false := by simpa using hm
        rcases hl : lookupK c.items k with _ | j
        · rw [removeKey_nonLRU_miss hm2 hl] at hp
          exact ⟨p, hp, hpi⟩
        · rw [removeKey_nonLRU_hit hm2 hl] at hp
          have hsub : List.Sublist (eraseK c.items k ++ c.evict) (c.items ++ c.evict) :=
            List.Sublist.append (eraseK_sublist c.items k) (List.Sublist.refl _)
          exact ⟨p, hsub.subset hp, hpi⟩
  | purgeStep =>
      obtain ⟨hh, _, _, _, hlru, hnon⟩ := purge_parts c
      obtain ⟨p, hp, hpi⟩ := h
      left
      by_cases hm : c.enableLRU
      · obtain ⟨he, hit⟩ := hlru hm
        rw [he, hit] at hp
        simp only [List.append_nil] at hp
        exact ⟨p, List.mem_append_left _ hp, hpi⟩
      · have hm2 : c.enableLRU = false := by simpa using hm
        obtain ⟨hit, he⟩ := hnon hm2
        rw [he, hit] at hp
        simp only [List.nil_append] at hp
        exact ⟨p, List.mem_append_right _ hp, hpi⟩
  | loadStep j res now =>
      obtain ⟨h1, h2, _⟩ := loadCompleteAt_parts c j res now
      obtain ⟨p, hp, hpi⟩ := h
      rw [h1, h2] at hp
      left
      exact ⟨p, hp, hpi⟩

theorem no_reinsert {c c2 : ContainerState} {i : Nat} (h1 : ¬ usesId c i)
    (h2 : i < c.heap.length) (ht : CTrace c c2) :
    ¬ usesId c2 i ∧ i < c2.heap.length := by
  induction ht with
  | refl => exact ⟨h1, h2⟩
  | tail _ hs ih =>
      obtain ⟨ih1, ih2⟩ := ih
      refine ⟨?_, lt_of_lt_of_le ih2 (cstep_heap_len hs)⟩
      intro hu
      rcases cstep_usesId hs hu with hu | hu
      · exact ih1 hu
      · omega

theorem eq_of_mem_nodup_snd {l : List (String × Nat)} (h : (l.map Prod.snd).Nodup)
    {p q : String × Nat} (hp : p ∈ l) (hq : q ∈ l) (heq : p.2 = q.2) : p = q := by
  induction l with
  | nil => simp at hp
  | cons a l ih =>
      simp only [List.map_cons, List.nodup_cons] at h
      rcases List.mem_cons.mp hp with hp1 | hp1 <;> rcases List.mem_cons.mp hq with hq1 | hq1
      · exact hp1.trans hq1.symm
      · exfalso
        apply h.1
        rw [hp1] at heq
        rw [heq]
        exact List.mem_map_of_mem Prod.snd hq1
      · exfalso
        apply h.1
        rw [hq1] at heq
        rw [← heq]
        exact List.mem_map_of_mem Prod.snd hp1
      · exact ih h.2 hp1 hq1

theorem not_usesId_after_remove {c : ContainerState} {k : String} {i0 : Nat}
    (hinv : CInv c) (hk : c.lookupKey k = some i0) :
    ¬ usesId (c.removeKey k).1 i0 := by
  obtain ⟨hb, hi, hki, hke⟩ := hinv
  have hi2 : ((c.items.map Prod.snd) ++ (c.evict.map Prod.snd)).Nodup := by
    rw [← List.map_append]
    exact hi
  obtain ⟨hni, hne, hdisj⟩ := List.nodup_append.mp hi2
  unfold ContainerState.lookupKey at hk
  by_cases hm : c.enableLRU
  · simp only [hm, if_true] at hk
    have hmem : (k, i0) ∈ c.evict := mem_of_lookupK_some hk
    rw [removeKey_LRU_hit hm hk]
    rintro ⟨p, hp, hpi⟩
    have hp2 : p ∈ c.items ++ eraseK c.evict k := hp
    rcases List.mem_append.mp hp2 with hp3 | hp3
    · have hmi : i0 ∈ List.map Prod.snd c.items := by
        rw [← hpi]
        exact List.mem_map_of_mem Prod.snd hp3
      exact hdisj hmi (List.mem_map_of_mem Prod.snd hmem)
    · have hp4 : p ∈ c.evict := mem_of_mem_eraseK hp3
      have hpe : p = (k, i0) := eq_of_mem_nodup_snd hne hp4 hmem hpi
      exact keys_not_mem_of_lookupK_none (lookupK_eraseK_self c.evict k) p hp3
        (by rw [hpe])
  · have hm2 : c.enableLRU = false := by simpa using hm
    simp only [hm2, Bool.false_eq_true, if_false] at hk
    have hmem : (k, i0) ∈ c.items := mem_of_lookupK_some hk
    rw [removeKey_nonLRU_hit hm2 hk]
    rintro ⟨p, hp, hpi⟩
    have hp2 : p ∈ eraseK c.items k ++ c.evict := hp
    rcases List.mem_append.mp hp2 with hp3 | hp3
    · have hp4 : p ∈ c.items := mem_of_mem_eraseK hp3
      have hpe : p = (k, i0) := eq_of_mem_nodup_snd hni hp4 hmem hpi
      exact keys_not_mem_of_lookupK_none (lookupK_eraseK_self c.items k) p hp3
        (by rw [hpe])
    · have hme : i0 ∈ List.map Prod.snd c.evict := by
        rw [← hpi]
        exact List.mem_map_of_mem Prod.snd hp3
      exact hdisj (List.mem_map_of_mem Prod.snd hmem) hme

theorem get?_append_length {α : Type} (l : List α) (x : α) :
    (l ++ [x]).get? l.length = some x := by
  induction l with
  | nil => rfl
  | cons a l ih => exact ih

theorem get?_set_self {α : Type} (l : List α) (i : Nat) (a : α) (h : i < l.length) :
    (l.set i a).get? i = some a := by
  induction l generalizing i with
  | nil => simp at h
  | cons b l ih =>
      cases i with
      | zero => rfl
      | succ n => simpa using ih n (by simpa using h)

theorem GetFull_eq_of_get {c : ContainerState} {k : String} {s : ItemState}
    (h : (c.getIdx k).1.heap.get? (c.getIdx k).2 = some s) (now : Nat) :
    c.GetFull k now = ({ (c.getIdx k).1 with
        heap := (c.getIdx k).1.heap.set (c.getIdx k).2 (s.ValueStep now).1 },
      (c.getIdx k).2, (s.ValueStep now).2.1, (s.ValueStep now).2.2) := by
  unfold ContainerState.GetFull
  rw [h]

/-- After removal, a Get for an absent key allocates a brand-new cold item
at the fresh heap position, blocks the caller and leaves the new item
refreshing with one load in flight. -/
theorem getFull_miss_cold {c : ContainerState} {k : String}
    (hl : c.lookupKey k = none) (now : Nat) :
    (c.GetFull k now).2.1 = c.heap.length ∧
    (c.GetFull k now).2.2.1 = ValueMode.blocked ∧
    (c.GetFull k now).2.2.2 = none ∧
    (c.GetFull k now).1.heap.get? c.heap.length = some (newItem c.ttl).RefreshGo.1 := by
  unfold ContainerState.lookupKey at hl
  have hmiss : (c.getIdx k).1.heap = c.heap ++ [newItem c.ttl] ∧
      (c.getIdx k).2 = c.heap.length := by
    by_cases hm : c.enableLRU
    · simp only [hm, if_true] at hl
      rw [getIdx_LRU_miss hm hl]
      exact ⟨rfl, rfl⟩
    · have hm2 : c.enableLRU = false := by
        simp only [Bool.not_eq_true] at hm
        exact hm
      simp only [hm2, Bool.false_eq_true, if_false] at hl
      rw [getIdx_nonLRU_miss hm2 hl]
      exact ⟨rfl, rfl⟩
  obtain ⟨hheap, hid⟩ := hmiss
  have hget : (c.getIdx k).1.heap.get? (c.getIdx k).2 = some (newItem c.ttl) := by
    rw [hheap, hid]
    exact get?_append_length c.heap (newItem c.ttl)
  have hvs : ((newItem c.ttl).ValueStep now) =
      ((newItem c.ttl).RefreshGo.1, ValueMode.blocked, none) := by
    have hnf : ¬ now < (newItem c.ttl).expireAt := by
      simp [newItem]
    have hini : (newItem c.ttl).RefreshGo.1.initialed = false := by
      rw [refreshGo_initialed]
      rfl
    simp [ItemState.ValueStep, hnf, hini]
  have heq := GetFull_eq_of_get hget now
  have hlen : (c.getIdx k).2 < (c.getIdx k).1.heap.length := by
    rw [hheap, hid]
    simp
  refine ⟨?_, ?_, ?_, ?_⟩
  · rw [heq]
    exact hid
  · rw [heq, hvs]
  · rw [heq, hvs]
  · rw [heq, hvs, ← hid]
    exact get?_set_self _ _ _ hlen

theorem removeKey_hit_facts {c : ContainerState} {k : String} {i0 : Nat}
    (hk : c.lookupKey k = some i0) :
    (c.removeKey k).2 = true ∧ (c.removeKey k).1.lookupKey k = none := by
  unfold ContainerState.lookupKey at hk
  by_cases hm : c.enableLRU
  · simp only [hm, if_true] at hk
    rw [removeKey_LRU_hit hm hk]
    refine ⟨rfl, ?_⟩
    show (if c.enableLRU = true then lookupK (eraseK c.evict k) k
          else lookupK c.items k) = none
    simp only [hm, if_true]
    exact lookupK_eraseK_self c.evict k
  · have hm2 : c.enableLRU = false := by
      simp only [Bool.not_eq_true] at hm
      exact hm
    simp only [hm2, Bool.false_eq_true, if_false] at hk
    rw [removeKey_nonLRU_hit hm2 hk]
    refine ⟨rfl, ?_⟩
    show (if c.enableLRU = true then lookupK c.evict k
          else lookupK (eraseK c.items k) k) = none
    simp only [hm2, Bool.false_eq_true, if_false]
    exact lookupK_eraseK_self c.items k

theorem purge_lookupKey (c : ContainerState) (kk : String) :
    c.purge.lookupKey kk = none := by
  obtain ⟨_, hml, _, _, hlru, hnon⟩ := purge_parts c
  unfold ContainerState.lookupKey
  by_cases hm : c.enableLRU
  · rw [hml, hm]
    simp only [if_true]
    rw [(hlru hm).1]
    rfl
  · have hm2 : c.enableLRU = false := by
      simp only [Bool.not_eq_true] at hm
      exact hm
    rw [hml, hm2]
    simp only [Bool.false_eq_true, if_false]
    rw [(hnon hm2).1]
    rfl

theorem not_usesId_after_purge {c : ContainerState} {k : String} {i0 : Nat}
    (hinv : CInv c) (hk : c.lookupKey k = some i0) :
    ¬ usesId c.purge i0 := by
  obtain ⟨hb, hi, hki, hke⟩ := hinv
  have hi2 : ((c.items.map Prod.snd) ++ (c.evict.map Prod.snd)).Nodup := by
    rw [← List.map_append]
    exact hi
  obtain ⟨hni, hne, hdisj⟩ := List.nodup_append.mp hi2
  obtain ⟨_, _, _, _, hlru, hnon⟩ := purge_parts c
  unfold ContainerState.lookupKey at hk
  by_cases hm : c.enableLRU
  · simp only [hm, if_true] at hk
    have hmem : (k, i0) ∈ c.evict := mem_of_lookupK_some hk
    obtain ⟨he, hit⟩ := hlru hm
    rintro ⟨p, hp, hpi⟩
    rw [he, hit] at hp
    simp only [List.append_nil] at hp
    have hmi : i0 ∈ List.map Prod.snd c.items := by
      rw [← hpi]
      exact List.mem_map_of_mem Prod.snd hp
    exact hdisj hmi (List.mem_map_of_mem Prod.snd hmem)
  · have hm2 : c.enableLRU = false := by
      simp only [Bool.not_eq_true] at hm
      exact hm
    simp only [hm2, Bool.false_eq_true, if_false] at hk
    have hmem : (k, i0) ∈ c.items := mem_of_lookupK_some hk
    obtain ⟨hit, he⟩ := hnon hm2
    rintro ⟨p, hp, hpi⟩
    rw [he, hit] at hp
    simp only [List.nil_append] at hp
    have hme : i0 ∈ List.map Prod.snd c.evict := by
      rw [← hpi]
      exact List.mem_map_of_mem Prod.snd hp
    exact hdisj (List.mem_map_of_mem Prod.snd hmem) hme

/-- Claim C5: a successful Remove unindexes the key, and likewise Purge
unindexes every key; in both cases the unindexed item id never reappears
in any index along any later trace, even when pending loads of the
removed item complete; and the next Get for the key - after the Remove or
after the Purge - allocates a brand-new item at a fresh heap position and
starts a blocking cold load, so it cannot return the pre-removal value. -/
theorem removed_never_resurrected (lru : Bool) (cap ttl nin : Nat) (c : ContainerState)
    (h0 : CTrace (mkContainer lru cap ttl nin) c) (k : String) (i0 : Nat)
    (hk : c.lookupKey k = some i0) :
    (c.removeKey k).2 = true ∧
    (c.removeKey k).1.lookupKey k = none ∧
    (∀ c2, CTrace (c.removeKey k).1 c2 → ∀ kk, ¬ c2.lookupKey kk = some i0) ∧
    (∀ now : Nat,
      ((c.removeKey k).1.GetFull k now).2.1 = (c.removeKey k).1.heap.length ∧
      i0 ≠ (c.removeKey k).1.heap.length ∧
      ((c.removeKey k).1.GetFull k now).2.2.1 = ValueMode.blocked ∧
      ((c.removeKey k).1.GetFull k now).1.heap.get? ((c.removeKey k).1.heap.length)
        = some (newItem ttl).RefreshGo.1) ∧
    c.purge.lookupKey k = none ∧
    (∀ c2, CTrace c.purge c2 → ∀ kk, ¬ c2.lookupKey kk = some i0) ∧
    (∀ now : Nat,
      (c.purge.GetFull k now).2.1 = c.purge.heap.length ∧
      i0 ≠ c.purge.heap.length ∧
      (c.purge.GetFull k now).2.2.1 = ValueMode.blocked ∧
      (c.purge.GetFull k now).1.heap.get? c.purge.heap.length
        = some (newItem ttl).RefreshGo.1) := by
  have hinv : CInv c := cinv_trace (cinv_init lru cap ttl nin) h0
  have httl : c.ttl = ttl := (ctrace_config h0).2.2
  have hrf := removeKey_hit_facts hk
  have hbound : i0 < c.heap.length := by
    obtain ⟨hb, _, _, _⟩ := hinv
    obtain ⟨p, hp, hpi⟩ := usesId_of_lookupKey hk
    rw [← hpi]
    exact hb p hp
  have hnouses : ¬ usesId (c.removeKey k).1 i0 := not_usesId_after_remove hinv hk
  have hheapc1 : (c.removeKey k).1.heap = c.heap := (removeKey_parts c k).1
  have hpnouses : ¬ usesId c.purge i0 := not_usesId_after_purge hinv hk
  have hpheap : c.purge.heap = c.heap := (purge_parts c).1
  refine ⟨hrf.1, hrf.2, ?_, ?_, purge_lookupKey c k, ?_, ?_⟩
  · intro c2 ht kk hlk
    have hnr := no_reinsert hnouses (by rw [hheapc1]; exact hbound) ht
    exact hnr.1 (usesId_of_lookupKey hlk)
  · intro now
    have hmc := getFull_miss_cold hrf.2 now
    have httl2 : (c.removeKey k).1.ttl = ttl := by
      rw [(removeKey_parts c k).2.2.2]
      exact httl
    refine ⟨hmc.1, ?_, hmc.2.1, ?_⟩
    · rw [hheapc1]
      omega
    · rw [← httl2]
      exact hmc.2.2.2
  · intro c2 ht kk hlk
    have hnr := no_reinsert hpnouses (by rw [hpheap]; exact hbound) ht
    exact hnr.1 (usesId_of_lookupKey hlk)
  · intro now
    have hmc := getFull_miss_cold (purge_lookupKey c k) now
    have httl3 : c.purge.ttl = ttl := by
      rw [(purge_parts c).2.2.2.1]
      exact httl
    refine ⟨hmc.1, ?_, hmc.2.1, ?_⟩
    · rw [hpheap]
      omega
    · rw [← httl3]
      exact hmc.2.2.2

/-- Witness for removed_never_resurrected on a concrete one-key
container, exercising both the Remove and the Purge conjuncts. -/
theorem removed_never_resurrected_witness :
    wBase.lookupKey "x" = some 0 ∧
    (wBase.removeKey "x").2 = true ∧
    wRemoved.lookupKey "x" = none ∧
    (¬ wRemoved.lookupKey "x" = some 0) ∧
    ((wRemoved.GetFull "x" 2).2.1 = wRemoved.heap.length ∧
      0 ≠ wRemoved.heap.length ∧
      (wRemoved.GetFull "x" 2).2.2.1 = ValueMode.blocked ∧
      (wRemoved.GetFull "x" 2).1.heap.get? wRemoved.heap.length
        = some (newItem 5).RefreshGo.1) ∧
    wBase.purge.lookupKey "x" = none ∧
    (¬ wBase.purge.lookupKey "x" = some 0) ∧
    ((wBase.purge.GetFull "x" 2).2.1 = wBase.purge.heap.length ∧
      0 ≠ wBase.purge.heap.length ∧
      (wBase.purge.GetFull "x" 2).2.2.1 = ValueMode.blocked ∧
      (wBase.purge.GetFull "x" 2).1.heap.get? wBase.purge.heap.length
        = some (newItem 5).RefreshGo.1) := by
  have h := removed_never_resurrected false 3 5 2 wBase
    (CTrace.tail (CTrace.refl _) (CStep.getStep _ "x" 0)) "x" 0 (by decide)
  exact ⟨by decide, h.1, h.2.1, h.2.2.1 wRemoved (CTrace.refl _) "x", h.2.2.2.1 2,
    h.2.2.2.2.1, h.2.2.2.2.2.1 wBase.purge (CTrace.refl _) "x", h.2.2.2.2.2.2 2⟩

theorem lru_nodup_len_step {c c2 : ContainerState} (hs : CStep c c2)
    (hnd : (c.evict.map Prod.fst).Nodup) (hlen : c.evict.length ≤ c.capacity) :
    (c2.evict.map Prod.fst).Nodup ∧ c2.evict.length ≤ c2.capacity := by
  have hcap := (cstep_config hs).2.1
  cases hs with
  | getStep k now =>
      obtain ⟨_, hev, _, _⟩ := GetFull_parts c k now
      rw [hev, hcap]
      by_cases hm : c.enableLRU
      · rcases hl : lookupK c.evict k with _ | j
        · rw [getIdx_LRU_miss hm hl]
          have hkfresh : ∀ p ∈ c.evict, p.1 ≠ k := keys_not_mem_of_lookupK_none hl
          have hnd1 : (((k, c.heap.length) :: c.evict).map Prod.fst).Nodup := by
            refine List.nodup_cons.mpr ⟨?_, hnd⟩
            intro hmem
            obtain ⟨p, hp, hp1⟩ := List.mem_map.mp hmem
            exact hkfresh p hp hp1
          by_cases hcap2 : ((k, c.heap.length) :: c.evict).length > c.capacity
          · rw [if_pos hcap2]
            refine ⟨List.Nodup.sublist ((List.dropLast_sublist _).map Prod.fst) hnd1, ?_⟩
            rw [List.length_dropLast]
            simp only [List.length_cons]
            omega
          · rw [if_neg hcap2]
            simp only [gt_iff_lt, not_lt] at hcap2
            exact ⟨hnd1, hcap2⟩
        · rw [getIdx_LRU_hit hm hl]
          have hnd1 : (((k, j) :: eraseK c.evict k).map Prod.fst).Nodup := by
            refine List.nodup_cons.mpr ⟨?_, ?_⟩
            · intro hmem
              obtain ⟨p, hp, hp1⟩ := List.mem_map.mp hmem
              exact keys_not_mem_of_lookupK_none (lookupK_eraseK_self c.evict k) p hp hp1
            · exact List.Nodup.sublist ((eraseK_sublist c.evict k).map Prod.fst) hnd
          refine ⟨hnd1, ?_⟩
          have hl2 := length_eraseK_of_lookupK_some hnd hl
          simp only [List.length_cons]
          omega
      · have hm2 : c.enableLRU = false := by
          simp only [Bool.not_eq_true] at hm
          exact hm
        rcases hl : lookupK c.items k with _ | j
        · rw [getIdx_nonLRU_miss hm2 hl]
          exact ⟨hnd, hlen⟩
        · rw [getIdx_nonLRU_hit hm2 hl]
          exact ⟨hnd, hlen⟩
  | removeStep k =>
      rw [hcap]
      by_cases hm : c.enableLRU
      · rcases hl : lookupK c.evict k with _ | j
        · rw [removeKey_LRU_miss hm hl]
          exact ⟨hnd, hlen⟩
        · rw [removeKey_LRU_hit hm hl]
          refine ⟨List.Nodup.sublist ((eraseK_sublist c.evict k).map Prod.fst) hnd, ?_⟩
          exact le_trans (List.Sublist.length_le (eraseK_sublist c.evict k)) hlen
      · have hm2 : c.enableLRU = false := by
          simp only [Bool.not_eq_true] at hm
          exact hm
        rcases hl : lookupK c.items k with _ | j
        · rw [removeKey_nonLRU_miss hm2 hl]
          exact ⟨hnd, hlen⟩
        · rw [removeKey_nonLRU_hit hm2 hl]
          exact ⟨hnd, hlen⟩
  | purgeStep =>
      obtain ⟨_, _, _, _, hlru, hnon⟩ := purge_parts c
      rw [hcap]
      by_cases hm : c.enableLRU
      · rw [(hlru hm).1]
        simp
      · have hm2 : c.enableLRU = false := by
          simp only [Bool.not_eq_true] at hm
          exact hm
        rw [(hnon hm2).2]
        exact ⟨hnd, hlen⟩
  | loadStep i res now =>
      obtain ⟨_, hev, _⟩ := loadCompleteAt_parts c i res now
      rw [hev, hcap]
      exact ⟨hnd, hlen⟩

theorem lru_inv_trace {lru : Bool} {cap ttl nin : Nat} {c : ContainerState}
    (h0 : CTrace (mkContainer lru cap ttl nin) c) :
    (c.evict.map Prod.fst).Nodup ∧ c.evict.length ≤ c.capacity := by
  induction h0 with
  | refl => simp [mkContainer]
  | tail _ hs ih => exact lru_nodup_len_step hs ih.1 ih.2

/-- Claim C6: in LRU mode with capacity cap, every Get leaves at most cap
resident entries; a Get hitting an existing key moves it to the recency
head without evicting; a Get inserting a new key when the index already
holds cap entries synchronously drops the recency tail (the least recently
touched entry) before returning, leaving exactly cap entries. -/
theorem lru_eviction_bound (cap ttl nin : Nat) (hcap : 1 ≤ cap) (c : ContainerState)
    (h0 : CTrace (mkContainer true cap ttl nin) c) (k : String) (now : Nat) :
    (c.GetFull k now).1.len ≤ cap ∧
    (∀ i, lookupK c.evict k = some i →
      (c.GetFull k now).1.evict = (k, i) :: eraseK c.evict k ∧
      (c.GetFull k now).1.len = c.len) ∧
    (lookupK c.evict k = none → c.evict.length = cap →
      (c.GetFull k now).1.evict = ((k, c.heap.length) :: c.evict).dropLast ∧
      (c.GetFull k now).1.len = cap) := by
  have hm : c.enableLRU = true := (ctrace_config h0).1
  have hcapc : c.capacity = cap := (ctrace_config h0).2.1
  obtain ⟨hnd, hlen⟩ := lru_inv_trace h0
  obtain ⟨_, hev, _, _, hml, hcp, _⟩ := GetFull_parts c k now
  have hlenf : (c.GetFull k now).1.len = (c.GetFull k now).1.evict.length := by
    unfold ContainerState.len
    rw [hml, hm]
    simp
  have hclen : c.len = c.evict.length := by
    unfold ContainerState.len
    rw [hm]
    simp
  refine ⟨?_, ?_, ?_⟩
  · obtain ⟨_, hb⟩ := lru_nodup_len_step (CStep.getStep c k now) hnd hlen
    rw [hlenf]
    rw [hcp, hcapc] at hb
    exact hb
  · intro i hl
    rw [hlenf, hev, getIdx_LRU_hit hm hl, hclen]
    refine ⟨rfl, ?_⟩
    have hl2 := length_eraseK_of_lookupK_some hnd hl
    simp only [List.length_cons]
    omega
  · intro hl hful
    rw [hlenf, hev, getIdx_LRU_miss hm hl]
    have hcap2 : ((k, c.heap.length) :: c.evict).length > c.capacity := by
      simp only [List.length_cons, gt_iff_lt, hful, hcapc]
      omega
    rw [if_pos hcap2]
    refine ⟨rfl, ?_⟩
    rw [List.length_dropLast]
    simp only [List.length_cons, hful]
    omega

/-- Witness for lru_eviction_bound: with capacity 2, inserting the third
distinct key evicts exactly the least-recently-touched key a. -/
theorem lru_eviction_bound_witness :
    lookupK w6b.evict "c" = none ∧ w6b.evict.length = 2 ∧
    w6c.len ≤ 2 ∧
    w6c.evict = (("c", w6b.heap.length) :: w6b.evict).dropLast ∧
    w6c.len = 2 ∧
    w6c.evict = [("c", 2), ("b", 1)] := by
  have h := lru_eviction_bound 2 5 2 (by decide) w6b
    (CTrace.tail (CTrace.tail (CTrace.refl _) (CStep.getStep _ "a" 0))
      (CStep.getStep _ "b" 0)) "c" 0
  have h3 := h.2.2 (by decide) (by decide)
  exact ⟨by decide, by decide, h.1, h3.1, h3.2, by decide⟩

/-- Counterexample to claim C7 as stated: a capacity option of 0 does not
yield an unbounded container - construction fails with the capacity
validation error, and an absent capacity yields the bounded default 512,
not an unbounded container. -/
theorem capacity_zero_cex :
    newContainer (FnVal.mk ⟨GoKind.funcK, 2, 2, true⟩) 5 ⟨some 0, false⟩
      = ConstructResult.errCapacityNotPositive ∧
    newContainer (FnVal.mk ⟨GoKind.funcK, 2, 2, true⟩) 5 ⟨none, true⟩
      = ConstructResult.ok (mkContainer true 512 5 2) := by
  exact ⟨rfl, rfl⟩

/-- Claim C7 (amended): a capacity option of zero makes construction fail
with the capacity validation error; an absent capacity defaults to 512;
and eviction is tied to LRU mode alone: in a non-LRU container no Get or
load completion ever drops an existing binding, entries persisting until
Remove or Purge. -/
theorem capacity_zero_behavior (fn : FnVal) (ttl : Nat) (lru : Bool) (sh : FnShape)
    (hsh : sh.kind = GoKind.funcK ∧ sh.numOut = 2) :
    newContainer fn ttl ⟨some 0, lru⟩ = ConstructResult.errCapacityNotPositive ∧
    newContainer (FnVal.mk sh) ttl ⟨none, lru⟩
      = ConstructResult.ok (mkContainer lru 512 ttl sh.numIn) ∧
    (∀ c : ContainerState, c.enableLRU = false → ∀ k i, lookupK c.items k = some i →
      (∀ k2 now, lookupK ((c.GetFull k2 now).1).items k = some i) ∧
      (∀ j res now, lookupK ((c.loadCompleteAt j res now)).items k = some i)) := by
  refine ⟨rfl, ?_, ?_⟩
  · simp [newContainer, hsh.1, hsh.2]
  · intro c hm k i hl
    constructor
    · intro k2 now
      rw [(GetFull_parts c k2 now).1]
      rcases hl2 : lookupK c.items k2 with _ | j
      · rw [getIdx_nonLRU_miss hm hl2]
        show lookupK ((k2, c.heap.length) :: c.items) k = some i
        by_cases hk : k2 = k
        · subst hk
          rw [hl] at hl2
          exact absurd hl2 (by simp)
        · simp only [lookupK, if_neg hk]
          exact hl
      · rw [getIdx_nonLRU_hit hm hl2]
        exact hl
    · intro j res now
      rw [(loadCompleteAt_parts c j res now).1]
      exact hl

/-- Witness for capacity_zero_behavior at a concrete loader shape and the
concrete one-key container wBase. -/
theorem capacity_zero_behavior_witness :
    ((⟨GoKind.funcK, 2, 2, true⟩ : FnShape).kind = GoKind.funcK ∧
      (⟨GoKind.funcK, 2, 2, true⟩ : FnShape).numOut = 2) ∧
    newContainer FnVal.nilFn 5 ⟨some 0, false⟩
      = ConstructResult.errCapacityNotPositive ∧
    newContainer (FnVal.mk ⟨GoKind.funcK, 2, 2, true⟩) 5 ⟨none, false⟩
      = ConstructResult.ok (mkContainer false 512 5 2) ∧
    lookupK ((wBase.GetFull "y" 1).1).items "x" = some 0 := by
  have h := capacity_zero_behavior FnVal.nilFn 5 false
    ⟨GoKind.funcK, 2, 2, true⟩ ⟨rfl, rfl⟩
  exact ⟨⟨rfl, rfl⟩, h.1, h.2.1, (h.2.2 wBase (by decide) "x" 0 (by decide)).1 "y" 1⟩

/-- Counterexample to claim C8 as stated: a function with two results
whose second result is not an error violates the declared contract, yet
construction accepts it; and a nil loader makes construction panic
instead of returning InvalidLoader. -/
theorem construction_validation_cex :
    newContainer (FnVal.mk ⟨GoKind.funcK, 1, 2, false⟩) 5 ⟨none, false⟩
      = ConstructResult.ok (mkContainer false 512 5 1) ∧
    ¬ specLoaderContract (FnVal.mk ⟨GoKind.funcK, 1, 2, false⟩) ∧
    newContainer FnVal.nilFn 5 ⟨none, false⟩ = ConstructResult.panicNilFn := by
  refine ⟨rfl, ?_, rfl⟩
  simp [specLoaderContract]

/-- Claim C8 (amended): with a positive or defaulted capacity, a non-nil
loader is rejected with ErrInvalidFn exactly when it is not a function
with exactly two results - result types are never inspected, so the
declared value-and-error contract is only enforced up to the result
count; construction of a non-nil loader never panics, any two-result
function yields the configured container, and a nil loader panics inside
reflect. -/
theorem construction_validation (sh : FnShape) (ttl : Nat) (opt : OptsIn)
    (hcap : 0 < opt.capacity.getD 512) :
    (newContainer (FnVal.mk sh) ttl opt = ConstructResult.errInvalidFn ↔
      ¬ (sh.kind = GoKind.funcK ∧ sh.numOut = 2)) ∧
    newContainer (FnVal.mk sh) ttl opt ≠ ConstructResult.panicNilFn ∧
    (sh.kind = GoKind.funcK ∧ sh.numOut = 2 →
      newContainer (FnVal.mk sh) ttl opt = ConstructResult.ok
        (mkContainer opt.enableLRU (opt.capacity.getD 512).toNat ttl sh.numIn)) ∧
    (specLoaderContract (FnVal.mk sh) → sh.kind = GoKind.funcK ∧ sh.numOut = 2) ∧
    newContainer FnVal.nilFn ttl opt = ConstructResult.panicNilFn := by
  have hc : ¬ (opt.capacity.getD 512 ≤ (0 : Int)) := by omega
  have heq1 : newContainer (FnVal.mk sh) ttl opt =
      (if sh.kind = GoKind.funcK ∧ sh.numOut = 2 then
        ConstructResult.ok
          (mkContainer opt.enableLRU (opt.capacity.getD 512).toNat ttl sh.numIn)
      else ConstructResult.errInvalidFn) := by
    simp [newContainer, hc]
  have heq2 : newContainer FnVal.nilFn ttl opt = ConstructResult.panicNilFn := by
    simp [newContainer, hc]
  refine ⟨?_, ?_, ?_, ?_, heq2⟩
  · rw [heq1]
    by_cases hfn : sh.kind = GoKind.funcK ∧ sh.numOut = 2 <;> simp [hfn]
  · rw [heq1]
    by_cases hfn : sh.kind = GoKind.funcK ∧ sh.numOut = 2 <;> simp [hfn]
  · intro hfn
    rw [heq1, if_pos hfn]
  · intro hspec
    exact ⟨hspec.1, hspec.2.1⟩

/-- Witness for construction_validation at a conforming concrete loader. -/
theorem construction_validation_witness :
    ((0 : Int) < Option.getD (none : Option Int) 512) ∧
    newContainer (FnVal.mk ⟨GoKind.funcK, 2, 2, true⟩) 7 ⟨none, false⟩
      = ConstructResult.ok (mkContainer false 512 7 2) := by
  refine ⟨by decide, ?_⟩
  exact (construction_validation ⟨GoKind.funcK, 2, 2, true⟩ 7 ⟨none, false⟩
    (by decide)).2.2.1 ⟨rfl, rfl⟩

theorem key_foldl_eq {ps qs : List Param} (h : paramTupleEquiv ps qs) (acc : String) :
    ps.foldl (fun buf p => buf ++ "#" ++ formatV (indirectP p)) acc =
    qs.foldl (fun buf p => buf ++ "#" ++ formatV (indirectP p)) acc := by
  induction h generalizing acc with
  | nil => rfl
  | cons hpq _ ih =>
      simp only [List.foldl_cons]
      rw [hpq]
      exact ih _

/-- A second non-LRU Get with the same key hits: it returns the same item
id and allocates nothing. -/
theorem get_same_key_hits (c : ContainerState) (hm : c.enableLRU = false)
    (k : String) (now now2 : Nat) :
    ((c.GetFull k now).1.GetFull k now2).2.1 = (c.GetFull k now).2.1 ∧
    ((c.GetFull k now).1.GetFull k now2).1.heap.length
      = (c.GetFull k now).1.heap.length := by
  have hm1 : (c.GetFull k now).1.enableLRU = false := by
    rw [(GetFull_parts c k now).2.2.2.2.1]
    exact hm
  have hl1 : lookupK (c.GetFull k now).1.items k = some ((c.GetFull k now).2.1) := by
    rw [(GetFull_parts c k now).1, (GetFull_parts c k now).2.2.2.1]
    rcases hl : lookupK c.items k with _ | j
    · rw [getIdx_nonLRU_miss hm hl]
      show lookupK ((k, c.heap.length) :: c.items) k = some c.heap.length
      simp [lookupK]
    · rw [getIdx_nonLRU_hit hm hl]
      exact hl
  constructor
  · rw [(GetFull_parts (c.GetFull k now).1 k now2).2.2.2.1,
      getIdx_nonLRU_hit hm1 hl1]
  · rw [(GetFull_parts (c.GetFull k now).1 k now2).2.2.1,
      getIdx_nonLRU_hit hm1 hl1]

/-- Claim C9: tuples whose parameters are pointwise equal after pointer
projection produce the same default cache key, so the second Get hits the
entry created by the first: same item id and no new allocation. -/
theorem pointer_transparent_keys (ps qs : List Param) (h : paramTupleEquiv ps qs)
    (c : ContainerState) (hm : c.enableLRU = false) (now now2 : Nat) :
    defaultCacheKeyGenerator ps = defaultCacheKeyGenerator qs ∧
    ((c.GetFull (defaultCacheKeyGenerator ps) now).1.GetFull
        (defaultCacheKeyGenerator qs) now2).2.1
      = (c.GetFull (defaultCacheKeyGenerator ps) now).2.1 ∧
    ((c.GetFull (defaultCacheKeyGenerator ps) now).1.GetFull
        (defaultCacheKeyGenerator qs) now2).1.heap.length
      = (c.GetFull (defaultCacheKeyGenerator ps) now).1.heap.length := by
  have hkey : defaultCacheKeyGenerator ps = defaultCacheKeyGenerator qs :=
    key_foldl_eq h ""
  rw [← hkey]
  exact ⟨rfl, get_same_key_hits c hm (defaultCacheKeyGenerator ps) now now2⟩

/-- Witness for pointer_transparent_keys: a pointer to the int 3 and the
plain int 3 share a key and an entry. -/
theorem pointer_transparent_keys_witness :
    paramTupleEquiv [Param.byPtr (PVal.pInt 3)] [Param.byValue (PVal.pInt 3)] ∧
    defaultCacheKeyGenerator [Param.byPtr (PVal.pInt 3)]
      = defaultCacheKeyGenerator [Param.byValue (PVal.pInt 3)] ∧
    (((mkContainer false 3 5 1).GetFull
        (defaultCacheKeyGenerator [Param.byPtr (PVal.pInt 3)]) 0).1.GetFull
        (defaultCacheKeyGenerator [Param.byValue (PVal.pInt 3)]) 1).2.1
      = ((mkContainer false 3 5 1).GetFull
        (defaultCacheKeyGenerator [Param.byPtr (PVal.pInt 3)]) 0).2.1 := by
  have hequiv : paramTupleEquiv [Param.byPtr (PVal.pInt 3)]
      [Param.byValue (PVal.pInt 3)] :=
    List.Forall₂.cons rfl List.Forall₂.nil
  have h := pointer_transparent_keys _ _ hequiv (mkContainer false 3 5 1) rfl 0 1
  exact ⟨hequiv, h.1, h.2.1⟩

/-- Claim C10: the default key codec is not injective.  The distinct
two-string tuples (hash, empty) and (empty, hash) render to the same key,
so Gets with logically different parameters are served from one shared
entry: the second Get returns the id the first created and allocates
nothing. -/
theorem key_codec_not_injective :
    defaultCacheKeyGenerator
      [Param.byValue (PVal.pStr "#"), Param.byValue (PVal.pStr "")]
      = defaultCacheKeyGenerator
        [Param.byValue (PVal.pStr ""), Param.byValue (PVal.pStr "#")] ∧
    [Param.byValue (PVal.pStr "#"), Param.byValue (PVal.pStr "")]
      ≠ [Param.byValue (PVal.pStr ""), Param.byValue (PVal.pStr "#")] ∧
    (((mkContainer false 3 5 2).GetFull (defaultCacheKeyGenerator
        [Param.byValue (PVal.pStr "#"), Param.byValue (PVal.pStr "")]) 0).1.GetFull
        (defaultCacheKeyGenerator
          [Param.byValue (PVal.pStr ""), Param.byValue (PVal.pStr "#")]) 1).2.1
      = ((mkContainer false 3 5 2).GetFull (defaultCacheKeyGenerator
          [Param.byValue (PVal.pStr "#"), Param.byValue (PVal.pStr "")]) 0).2.1 ∧
    (((mkContainer false 3 5 2).GetFull (defaultCacheKeyGenerator
        [Param.byValue (PVal.pStr "#"), Param.byValue (PVal.pStr "")]) 0).1.GetFull
        (defaultCacheKeyGenerator
          [Param.byValue (PVal.pStr ""), Param.byValue (PVal.pStr "#")]) 1).1.heap.length
      = ((mkContainer false 3 5 2).GetFull (defaultCacheKeyGenerator
          [Param.byValue (PVal.pStr "#"), Param.byValue (PVal.pStr "")]) 0).1.heap.length := by
  refine ⟨by decide, by decide, ?_, ?_⟩
  · have hkey : defaultCacheKeyGenerator
        [Param.byValue (PVal.pStr "#"), Param.byValue (PVal.pStr "")]
        = defaultCacheKeyGenerator
          [Param.byValue (PVal.pStr ""), Param.byValue (PVal.pStr "#")] := by decide
    rw [← hkey]
    exact (get_same_key_hits (mkContainer false 3 5 2) rfl _ 0 1).1
  · have hkey : defaultCacheKeyGenerator
        [Param.byValue (PVal.pStr "#"), Param.byValue (PVal.pStr "")]
        = defaultCacheKeyGenerator
          [Param.byValue (PVal.pStr ""), Param.byValue (PVal.pStr "#")] := by decide
    rw [← hkey]
    exact (get_same_key_hits (mkContainer false 3 5 2) rfl _ 0 1).2

end LCache
